import Mathlib

/-!
# Verification of the slang semantic elaboration core

A shallow embedding of the compilation driver, lookup machinery, expression
lvalue analysis and source manager of the slang SystemVerilog front-end,
with theorems checking the natural-language specification against it.

The repository provides the public headers (`Compilation.h`, `Expressions.h`,
`Lookup.h`, `SourceManager.h`); inline member functions and default member
initializers are embedded directly from that source.  Behavior implemented in
translation units that are not part of the visible source is modelled from the
specification and the headers' documented contracts; each such definition says
so in its doc comment.
-/

namespace Slang

/-- Which set of min:typ:max expressions should be used during compilation.
Embeds `enum class MinTypMax` from Compilation.h. -/
inductive MinTypMax where
  | Min
  | Typ
  | Max
deriving DecidableEq, Repr

/-- Embeds `struct CompilationOptions` from Compilation.h, with the default
member initializers written there.  `flat_hash_set<string_view> topModules`
and `std::vector<std::string> paramOverrides` are default-constructed empty. -/
structure CompilationOptions where
  maxInstanceDepth : Nat := 512
  maxGenerateSteps : Nat := 65535
  maxConstexprDepth : Nat := 256
  maxConstexprSteps : Nat := 100000
  maxConstexprBacktrace : Nat := 10
  maxDefParamSteps : Nat := 128
  errorLimit : Nat := 64
  typoCorrectionLimit : Nat := 32
  minTypMax : MinTypMax := MinTypMax.Typ
  lintMode : Bool := false
  suppressUnused : Bool := true
  disableInstanceCaching : Bool := false
  topModules : List String := []
  paramOverrides : List String := []
deriving DecidableEq, Repr

/-- A default-constructed `CompilationOptions`. -/
def defaultCompilationOptions : CompilationOptions := {}

/-- A module declaration carried by a syntax tree: its name and the names of
the modules it instantiates in its body.  This is the projection of a parsed
tree that the compilation driver's top-module selection consumes. -/
structure ModuleDecl where
  name : String
  instantiated : List String
deriving DecidableEq, Repr

/-- A parsed syntax tree, projected to the module declarations it carries. -/
abbrev SyntaxTree := List ModuleDecl

/-- The root of the design: a scope whose members are the top-level
instances (`RootSymbol` in the headers). -/
structure RootSymbol where
  topInstances : List String
deriving DecidableEq, Repr

/-- The error thrown by mutating operations on a finalized compilation. -/
inductive CompilationError where
  | alreadyFinalized
deriving DecidableEq, Repr

/-- The state of one `Compilation` object: the added syntax trees, the
finalization flag, the cached root, dynamically created script scopes with
their instantiations, the set of bind directives seen so far, and the typo
correction counter.  Fields mirror `Compilation`'s private data members:
`syntaxTrees`, `finalized`, `root`, `compilationUnits`, `seenBindDirectives`,
`typoCorrections`, plus a counter of elaboration runs used to state
idempotence. -/
structure CompilationState where
  options : CompilationOptions
  syntaxTrees : List SyntaxTree
  finalized : Bool
  root : Option RootSymbol
  scriptScopes : List Nat
  scriptInstantiations : List (Nat × String)
  nextUnitId : Nat
  seenBindDirectives : List Nat
  typoCorrections : Nat
  elaborations : Nat
deriving DecidableEq, Repr

/-- A fresh compilation, before any syntax tree is added. -/
def Compilation.fresh (options : CompilationOptions) : CompilationState :=
  { options := options
    syntaxTrees := []
    finalized := false
    root := none
    scriptScopes := []
    scriptInstantiations := []
    nextUnitId := 0
    seenBindDirectives := []
    typoCorrections := 0
    elaborations := 0 }

/-- Embeds the inline `bool isFinalized() const { return finalized; }` from
Compilation.h. -/
def isFinalized (s : CompilationState) : Bool := s.finalized

/-- Modelled from the spec: the body of `Compilation::addSyntaxTree` is not
in the visible source; per its header contract, it throws if the compilation
has already been finalized by `getRoot`, and otherwise appends the tree to
the compilation's list of syntax trees. -/
def addSyntaxTree (t : SyntaxTree) (s : CompilationState) :
    Except CompilationError CompilationState :=
  if s.finalized then
    Except.error CompilationError.alreadyFinalized
  else
    Except.ok { s with syntaxTrees := s.syntaxTrees ++ [t] }

/-- The names of all modules declared in the given trees. -/
def declaredModules (trees : List SyntaxTree) : List String :=
  trees.flatMap (fun t => t.map ModuleDecl.name)

/-- The names of all modules instantiated anywhere in the given trees
(`globalInstantiations` in Compilation.h). -/
def instantiatedModules (trees : List SyntaxTree) : List String :=
  trees.flatMap (fun t => t.flatMap ModuleDecl.instantiated)

/-- Modelled from the spec: top-module selection — when no explicit list is
configured, the top modules are the declared modules never instantiated
elsewhere; otherwise the declared modules named in `topModules`. -/
def computeTops (options : CompilationOptions) (trees : List SyntaxTree) :
    List String :=
  if options.topModules.isEmpty then
    (declaredModules trees).filter (fun n => ¬ (instantiatedModules trees).contains n)
  else
    (declaredModules trees).filter (fun n => options.topModules.contains n)

/-- Modelled from the spec: elaboration builds the root symbol whose members
are the top-level instances, from the syntax trees present at that moment. -/
def elaborate (s : CompilationState) : RootSymbol :=
  { topInstances := computeTops s.options s.syntaxTrees }

/-- Modelled from the spec: the body of `Compilation::getRoot` is not in the
visible source; per its header contract, the first call elaborates all
top-level instances and finalizes the compilation, and subsequent calls
return the cached root.  Returns the root together with the updated state. -/
def getRoot (s : CompilationState) : RootSymbol × CompilationState :=
  match s.root with
  | some r => (r, s)
  | none =>
      let r := elaborate s
      (r, { s with root := some r
                   finalized := true
                   elaborations := s.elaborations + 1 })

/-- Modelled from the spec: the body of `Compilation::createScriptScope` is
not in the visible source; per its header contract it creates a new
compilation unit that can be modified dynamically, and succeeds even if the
design has been finalized — there is no finalization guard.  Returns the
fresh unit's id and the updated state. -/
def createScriptScope (s : CompilationState) :
    Except CompilationError (Nat × CompilationState) :=
  Except.ok (s.nextUnitId,
    { s with scriptScopes := s.scriptScopes ++ [s.nextUnitId]
             nextUnitId := s.nextUnitId + 1 })

/-- Modelled from the spec: placing an instantiation inside a script scope
records it on the script side; it is not part of the design's syntax trees. -/
def instantiateInScriptScope (s : CompilationState) (u : Nat) (m : String) :
    CompilationState :=
  { s with scriptInstantiations := s.scriptInstantiations ++ [(u, m)] }

/-- Unit ids handed out so far are strictly below the next id; holds for
every state produced by the public operations from a fresh compilation. -/
def scriptIdsFresh (s : CompilationState) : Prop :=
  ∀ u ∈ s.scriptScopes, u < s.nextUnitId

/-- Modelled from the spec: the body of `Compilation::noteBindDirective` is
not in the visible source; per its header contract it returns true the first
time a directive is encountered, recording it in `seenBindDirectives`, and
false if it has already been elaborated.  Directives are identified by the
address of their syntax node, embedded as a `Nat`. -/
def noteBindDirective (d : Nat) (s : CompilationState) :
    Bool × CompilationState :=
  if s.seenBindDirectives.contains d then
    (false, s)
  else
    (true, { s with seenBindDirectives := d :: s.seenBindDirectives })

/-- Embeds the inline
`bool doTypoCorrection() const { return typoCorrections < options.typoCorrectionLimit; }`
from Compilation.h. -/
def doTypoCorrection (s : CompilationState) : Bool :=
  s.typoCorrections < s.options.typoCorrectionLimit

/-- Embeds the inline `void didTypoCorrection() { typoCorrections++; }`
from Compilation.h. -/
def didTypoCorrection (s : CompilationState) : CompilationState :=
  { s with typoCorrections := s.typoCorrections + 1 }

/-- The outcome of the lookup steps for one name: either some step resolved
it, or no step did. -/
inductive LookupOutcome where
  | resolved
  | unresolved
deriving DecidableEq, Repr

/-- Modelled from the spec: the lookup code (not in the visible source)
attempts typo correction only for a name no lookup step resolved, and only
after checking `doTypoCorrection`; an attempt calls `didTypoCorrection`.
Returns the updated state and whether a correction was attempted. -/
def lookupFinish (s : CompilationState) (o : LookupOutcome) :
    CompilationState × Bool :=
  match o with
  | LookupOutcome.resolved => (s, false)
  | LookupOutcome.unresolved =>
      if doTypoCorrection s then (didTypoCorrection s, true) else (s, false)

/-- A sequence of name lookups over the lifetime of one compilation. -/
def runLookups (s : CompilationState) : List LookupOutcome → CompilationState
  | [] => s
  | o :: rest => runLookups (lookupFinish s o).1 rest

/-- `lookupFinish` never changes the compilation options. -/
theorem lookupFinish_options (s : CompilationState) (o : LookupOutcome) :
    (lookupFinish s o).1.options = s.options := by
  cases o with
  | resolved => rfl
  | unresolved =>
      unfold lookupFinish didTypoCorrection
      by_cases h : doTypoCorrection s <;> simp [h]

/-- `lookupFinish` keeps the correction count within the limit. -/
theorem lookupFinish_bound (s : CompilationState) (o : LookupOutcome)
    (h : s.typoCorrections ≤ s.options.typoCorrectionLimit) :
    (lookupFinish s o).1.typoCorrections ≤
      (lookupFinish s o).1.options.typoCorrectionLimit := by
  cases o with
  | resolved => exact h
  | unresolved =>
      cases hlt : doTypoCorrection s with
      | true =>
          have hprop : s.typoCorrections < s.options.typoCorrectionLimit := by
            simpa [doTypoCorrection] using hlt
          simp only [lookupFinish, hlt, if_true, didTypoCorrection]
          omega
      | false =>
          simp only [lookupFinish, hlt, if_false]
          exact h

/-- Lexicographic comparison of positions on the path from the root scope,
used when two lookup locations lie in different scopes. -/
def lexLt : List Nat → List Nat → Bool
  | [], [] => false
  | [], _ :: _ => true
  | _ :: _, [] => false
  | a :: as, b :: bs =>
      if a < b then true
      else if b < a then false
      else lexLt as bs

/-- Modelled from the spec: a `LookupLocation` is `(scope, index)`; the two
sentinel values `min` and `max` are the locations with a null scope defined
in the non-visible translation unit.  A real scope is identified by its path
of member indices from the root scope, so that walking to a common ancestor
is a comparison of paths. -/
inductive LookupLoc where
  | sentinelMin
  | sentinelMax
  | real (scope : List Nat) (index : Nat)
deriving DecidableEq, Repr

/-- Modelled from the spec: the body of `LookupLocation::operator<` is not in
the visible source; per the spec, `min` compares strictly before and `max`
strictly after any other location, two locations in one scope compare by
index, and locations in different scopes compare by walking to a common
ancestor. -/
def locLt : LookupLoc → LookupLoc → Bool
  | LookupLoc.sentinelMin, LookupLoc.sentinelMin => false
  | LookupLoc.sentinelMin, _ => true
  | _, LookupLoc.sentinelMin => false
  | LookupLoc.sentinelMax, _ => false
  | _, LookupLoc.sentinelMax => true
  | LookupLoc.real s1 i1, LookupLoc.real s2 i2 =>
      if s1 = s2 then i1 < i2
      else lexLt (s1 ++ [i1]) (s2 ++ [i2])

/-- The structural key of a packed vector type: bit width plus the integral
flags (signed, four-state, reg), packed the way `vectorTypeCache` keys are
(`flat_hash_map<uint32_t, const Type*>` keyed on width and flags). -/
structure VectorTypeDesc where
  width : Nat
  signed : Bool
  fourState : Bool
  isReg : Bool
deriving DecidableEq, Repr

/-- The packed cache key for a vector type description. -/
def structuralKey (d : VectorTypeDesc) : Nat :=
  d.width + 2 ^ 24 *
    ((if d.signed then 1 else 0) + 2 * (if d.fourState then 1 else 0) +
      4 * (if d.isReg then 1 else 0))

/-- The compilation's intern table for types: the cache maps structural keys
to interned type identities (the pointer in the C++ code), and `nextId` is
the next fresh identity. -/
structure TypeTable where
  cache : List (Nat × Nat)
  nextId : Nat
deriving DecidableEq, Repr

/-- Cache lookup by structural key. -/
def TypeTable.lookup (t : TypeTable) (key : Nat) : Option Nat :=
  (t.cache.find? (fun p => p.1 == key)).map Prod.snd

/-- Modelled from the spec: the body of `Compilation::getType` is not in the
visible source; per the spec it canonicalizes the description and returns the
interned type, allocating a fresh one on a cache miss. -/
def internKey (key : Nat) (t : TypeTable) : Nat × TypeTable :=
  match t.lookup key with
  | some id => (id, t)
  | none => (t.nextId, { cache := (key, t.nextId) :: t.cache, nextId := t.nextId + 1 })

/-- `getType` on a vector type description. -/
def getType (d : VectorTypeDesc) (t : TypeTable) : Nat × TypeTable :=
  internKey (structuralKey d) t

/-- The interning invariant of the type table: interned identities are below
the fresh counter, keys are interned at most once, and distinct keys map to
distinct identities. -/
def TypeTable.wf (t : TypeTable) : Prop :=
  (∀ p ∈ t.cache, p.2 < t.nextId) ∧
  (t.cache.map Prod.fst).Nodup ∧
  (t.cache.map Prod.snd).Nodup

/-- A successful cache lookup comes from a cache entry. -/
theorem lookup_mem {t : TypeTable} {k v : Nat} (h : t.lookup k = some v) :
    (k, v) ∈ t.cache := by
  unfold TypeTable.lookup at h
  cases hf : t.cache.find? (fun p => p.1 == k) with
  | none => rw [hf] at h; exact absurd h (by simp)
  | some p =>
      rw [hf] at h
      have hp : p ∈ t.cache := List.mem_of_find?_eq_some hf
      have hk : p.1 = k := by
        have := List.find?_some hf
        simpa using this
      have hv : p.2 = v := by simpa using h
      rw [← hk, ← hv]
      exact hp

/-- A failed cache lookup means no entry carries the key. -/
theorem lookup_none_not_mem {t : TypeTable} {k : Nat}
    (h : t.lookup k = none) : ∀ v, (k, v) ∉ t.cache := by
  intro v hv
  unfold TypeTable.lookup at h
  cases hf : t.cache.find? (fun p => p.1 == k) with
  | some p => rw [hf] at h; exact absurd h (by simp)
  | none =>
      have := List.find?_eq_none.mp hf (k, v) hv
      simp at this

/-- When the cache keys are nodup, any entry determines the lookup result. -/
theorem lookup_eq_of_mem {t : TypeTable} {k v : Nat}
    (hnd : (t.cache.map Prod.fst).Nodup) (hmem : (k, v) ∈ t.cache) :
    t.lookup k = some v := by
  unfold TypeTable.lookup
  have hsome : (t.cache.find? (fun p => p.1 == k)).isSome := by
    rw [List.find?_isSome]
    exact ⟨(k, v), hmem, by simp⟩
  cases hf : t.cache.find? (fun p => p.1 == k) with
  | none => rw [hf] at hsome; exact absurd hsome (by simp)
  | some p =>
      have hp : p ∈ t.cache := List.mem_of_find?_eq_some hf
      have hk : p.1 = k := by
        have := List.find?_some hf
        simpa using this
      have : p = (k, v) := by
        have hinj := List.inj_on_of_nodup_map hnd
        exact hinj hp hmem (by simpa using hk)
      rw [this]
      rfl

/-- `internKey` yields an entry of the resulting cache. -/
theorem internKey_mem (k : Nat) (t : TypeTable) :
    (k, (internKey k t).1) ∈ (internKey k t).2.cache := by
  unfold internKey
  cases h : t.lookup k with
  | some v => simpa using lookup_mem h
  | none => simp

/-- `internKey` preserves the interning invariant. -/
theorem internKey_wf {t : TypeTable} (hwf : t.wf) (k : Nat) :
    (internKey k t).2.wf := by
  obtain ⟨hb, hk, hv⟩ := hwf
  unfold internKey
  cases h : t.lookup k with
  | some v => exact ⟨hb, hk, hv⟩
  | none =>
      refine ⟨?_, ?_, ?_⟩
      · intro p hp
        rcases List.mem_cons.mp hp with rfl | hp
        · simp
        · exact Nat.lt_succ_of_lt (hb p hp)
      · simp only [List.map_cons, List.nodup_cons]
        refine ⟨?_, hk⟩
        intro hmem
        rcases List.mem_map.mp hmem with ⟨p, hp, hfst⟩
        exact lookup_none_not_mem h p.2 (by rw [← hfst]; exact hp)
      · simp only [List.map_cons, List.nodup_cons]
        refine ⟨?_, hv⟩
        intro hmem
        rcases List.mem_map.mp hmem with ⟨p, hp, hsnd⟩
        exact absurd (hsnd ▸ hb p hp) (lt_irrefl _)

/-- The identity handed out by `internKey` is below the new fresh counter. -/
theorem internKey_id_lt {t : TypeTable} (hwf : t.wf) (k : Nat) :
    (internKey k t).1 < (internKey k t).2.nextId := by
  obtain ⟨hb, _, _⟩ := hwf
  unfold internKey
  cases h : t.lookup k with
  | some v => simpa using hb _ (lookup_mem h)
  | none => simp

/-- `internKey` never shrinks the cache: old entries survive. -/
theorem internKey_mono {t : TypeTable} {p : Nat × Nat} (hp : p ∈ t.cache)
    (k : Nat) : p ∈ (internKey k t).2.cache := by
  unfold internKey
  cases h : t.lookup k with
  | some v => simpa using hp
  | none => simp [hp]

/-- Two successive internings on a well-formed table yield the same identity
exactly when the keys are equal. -/
theorem internKey_fst_eq_iff {t : TypeTable} (hwf : t.wf) (k1 k2 : Nat) :
    (internKey k2 (internKey k1 t).2).1 = (internKey k1 t).1 ↔ k2 = k1 := by
  have hwf1 : (internKey k1 t).2.wf := internKey_wf hwf k1
  have hmem1 : (k1, (internKey k1 t).1) ∈ (internKey k1 t).2.cache :=
    internKey_mem k1 t
  have hlt1 : (internKey k1 t).1 < (internKey k1 t).2.nextId :=
    internKey_id_lt hwf k1
  set i1 := (internKey k1 t).1 with hi1
  set t1 := (internKey k1 t).2 with ht1
  constructor
  · intro heq
    cases h : t1.lookup k2 with
    | some v =>
        have hv : (internKey k2 t1).1 = v := by simp [internKey, h]
        have hmemB : (k2, i1) ∈ t1.cache := by
          have := lookup_mem h
          rw [← heq, hv]
          exact this
        have hinj := List.inj_on_of_nodup_map hwf1.2.2
        have hpair : (k2, i1) = (k1, i1) := hinj hmemB hmem1 rfl
        simpa using congrArg Prod.fst hpair
    | none =>
        have hv : (internKey k2 t1).1 = t1.nextId := by simp [internKey, h]
        rw [hv] at heq
        omega
  · intro heq
    subst heq
    have hl : t1.lookup k2 = some i1 := lookup_eq_of_mem hwf1.2.1 hmem1
    simp [internKey, hl]

/-- The expression variants, one constructor per entry of the `EXPRESSION`
kind list in Expressions.h.  Payloads keep the children relevant to lvalue
analysis: a `NamedValueExpression` carries its symbol with the symbol's
mutability and the `isHierarchical` flag, selects and member accesses carry
their base, and a concatenation carries its operand list. -/
inductive Expr where
  | invalid (child : Option Expr)
  | integerLiteral (value : Int)
  | realLiteral
  | unbasedUnsizedIntegerLiteral
  | nullLiteral
  | stringLiteral (value : String)
  | namedValue (symbol : Nat) (isMutable : Bool) (isHierarchical : Bool)
  | unaryOp (operand : Expr)
  | binaryOp (left right : Expr)
  | conditionalOp (pred left right : Expr)
  | assignment (left right : Expr)
  | concatenation (operands : List Expr)
  | replication (count concat : Expr)
  | elementSelect (value selector : Expr)
  | rangeSelect (value left right : Expr)
  | memberAccess (value : Expr) (field : Nat)
  | call (arguments : List Expr)
  | conversion (operand : Expr)
  | dataType
  | simpleAssignmentPattern (elements : List Expr)
  | structuredAssignmentPattern (elements : List Expr)
  | replicatedAssignmentPattern (count : Expr) (elements : List Expr)

/-- A selector on an lvalue path, as captured during lvalue evaluation. -/
inductive LVSelector where
  | element (selector : Expr)
  | range (left right : Expr)
  | member (field : Nat)

/-- The handle produced by lvalue evaluation: a base symbol with a path of
selectors, or a concatenation of lvalues. -/
inductive LValue where
  | sym (symbol : Nat)
  | select (base : LValue) (sel : LVSelector)
  | concat (parts : List LValue)

/-- The exception carried when an expression is not an lvalue. -/
inductive EvalError where
  | notAnLValue
deriving DecidableEq, Repr

mutual

/-- Modelled from the spec: the body of `Expression::isLValue` is not in the
visible source; per the spec an expression is an lvalue iff it is a
named-value referring to a mutable symbol, an element- or range-select of an
lvalue, a member-access whose base is an lvalue, or a concatenation of
lvalues. -/
def isLValue : Expr → Bool
  | Expr.namedValue _ m _ => m
  | Expr.elementSelect v _ => isLValue v
  | Expr.rangeSelect v _ _ => isLValue v
  | Expr.memberAccess v _ => isLValue v
  | Expr.concatenation ops => isLValueList ops
  | _ => false

/-- All operands of a concatenation are lvalues. -/
def isLValueList : List Expr → Bool
  | [] => true
  | e :: rest => isLValue e && isLValueList rest

end

mutual

/-- Modelled from the spec: the `evalLValueImpl` bodies are not in the
visible source; per the headers only named values, element selects, range
selects, member accesses and concatenations implement lvalue evaluation, and
`Expression::evalLValue` throws on every other kind.  The result is the
LValue handle: base symbol plus selector path, or a concatenation. -/
def evalLValue : Expr → Except EvalError LValue
  | Expr.namedValue s m _ =>
      if m then Except.ok (LValue.sym s) else Except.error EvalError.notAnLValue
  | Expr.elementSelect v sel =>
      match evalLValue v with
      | Except.ok lv => Except.ok (LValue.select lv (LVSelector.element sel))
      | Except.error err => Except.error err
  | Expr.rangeSelect v l r =>
      match evalLValue v with
      | Except.ok lv => Except.ok (LValue.select lv (LVSelector.range l r))
      | Except.error err => Except.error err
  | Expr.memberAccess v f =>
      match evalLValue v with
      | Except.ok lv => Except.ok (LValue.select lv (LVSelector.member f))
      | Except.error err => Except.error err
  | Expr.concatenation ops =>
      match evalLValueList ops with
      | Except.ok lvs => Except.ok (LValue.concat lvs)
      | Except.error err => Except.error err
  | _ => Except.error EvalError.notAnLValue

/-- Lvalue-evaluate every operand of a concatenation, failing if any fails. -/
def evalLValueList : List Expr → Except EvalError (List LValue)
  | [] => Except.ok []
  | e :: rest =>
      match evalLValue e with
      | Except.ok lv =>
          match evalLValueList rest with
          | Except.ok lvs => Except.ok (lv :: lvs)
          | Except.error err => Except.error err
      | Except.error err => Except.error err

end

/-- The lvalue shapes exactly as the specification words them: a named value
referring to a mutable symbol; an element- or range-select of an lvalue; a
member access whose base is an lvalue; a concatenation of lvalues. -/
inductive IsLValueShape : Expr → Prop where
  | namedValue (s : Nat) (h : Bool) :
      IsLValueShape (Expr.namedValue s true h)
  | elementSelect {v : Expr} (sel : Expr) :
      IsLValueShape v → IsLValueShape (Expr.elementSelect v sel)
  | rangeSelect {v : Expr} (l r : Expr) :
      IsLValueShape v → IsLValueShape (Expr.rangeSelect v l r)
  | memberAccess {v : Expr} (f : Nat) :
      IsLValueShape v → IsLValueShape (Expr.memberAccess v f)
  | concatenation {ops : List Expr} :
      (∀ e ∈ ops, IsLValueShape e) → IsLValueShape (Expr.concatenation ops)

end Slang

namespace Slang

/-- C8: A default-constructed CompilationOptions carries exactly the
documented limits — maxInstanceDepth 512, maxGenerateSteps 65535,
maxConstexprDepth 256, maxConstexprSteps 100000, maxConstexprBacktrace 10,
maxDefParamSteps 128, errorLimit 64, typoCorrectionLimit 32 — with empty
topModules and paramOverrides. -/
theorem default_options_documented_limits :
    defaultCompilationOptions.maxInstanceDepth = 512 ∧
    defaultCompilationOptions.maxGenerateSteps = 65535 ∧
    defaultCompilationOptions.maxConstexprDepth = 256 ∧
    defaultCompilationOptions.maxConstexprSteps = 100000 ∧
    defaultCompilationOptions.maxConstexprBacktrace = 10 ∧
    defaultCompilationOptions.maxDefParamSteps = 128 ∧
    defaultCompilationOptions.errorLimit = 64 ∧
    defaultCompilationOptions.typoCorrectionLimit = 32 ∧
    defaultCompilationOptions.topModules = [] ∧
    defaultCompilationOptions.paramOverrides = [] := by
  refine ⟨rfl, rfl, rfl, rfl, rfl, rfl, rfl, rfl, rfl, rfl⟩

/-- A compilation state is coherent when a cached root implies the finalized
flag is set; every state produced by the public operations from a fresh
compilation satisfies this. -/
def rootImpliesFinalized (s : CompilationState) : Prop :=
  s.root.isSome → s.finalized = true

/-- C1: once getRoot has been called, isFinalized returns true and every
subsequent addSyntaxTree fails with an exception, adding nothing; before
finalization, addSyntaxTree appends the tree to the list of syntax trees. -/
theorem addSyntaxTree_finalization (s : CompilationState) (t : SyntaxTree)
    (hinv : rootImpliesFinalized s) :
    (isFinalized (getRoot s).2 = true) ∧
    (isFinalized s = true →
      addSyntaxTree t s = Except.error CompilationError.alreadyFinalized) ∧
    (isFinalized s = false →
      addSyntaxTree t s =
        Except.ok { s with syntaxTrees := s.syntaxTrees ++ [t] }) := by
  refine ⟨?_, ?_, ?_⟩
  · unfold getRoot
    cases h : s.root with
    | some r =>
        simpa [isFinalized] using hinv (by simp [h])
    | none => rfl
  · intro h
    unfold addSyntaxTree isFinalized at *
    simp [h]
  · intro h
    unfold addSyntaxTree isFinalized at *
    simp [h]

/-- Witness for C1 at a concrete state: a fresh compilation to which one
tree was added, then finalized by getRoot. -/
theorem addSyntaxTree_finalization_witness :
    (isFinalized (getRoot (Compilation.fresh {})).2 = true) ∧
    (isFinalized (Compilation.fresh {}) = true →
      addSyntaxTree [] (Compilation.fresh {}) =
        Except.error CompilationError.alreadyFinalized) ∧
    (isFinalized (Compilation.fresh {}) = false →
      addSyntaxTree [] (Compilation.fresh {}) =
        Except.ok { Compilation.fresh {} with
                      syntaxTrees := (Compilation.fresh {}).syntaxTrees ++ [[]] }) :=
  addSyntaxTree_finalization (Compilation.fresh {}) []
    (by intro h; simp [Compilation.fresh] at h)

/-- C3: getRoot is idempotent — the first call on an unfinalized compilation
elaborates (incrementing the elaboration count) and finalizes; every
subsequent call performs no elaboration and returns the same cached root and
state. -/
theorem getRoot_idempotent (s : CompilationState) :
    (getRoot (getRoot s).2 = ((getRoot s).1, (getRoot s).2)) ∧
    ((getRoot (getRoot s).2).2.elaborations = (getRoot s).2.elaborations) ∧
    (s.root = none →
      (getRoot s).2.elaborations = s.elaborations + 1 ∧
      (getRoot s).2.finalized = true ∧
      (getRoot s).1 = elaborate s ∧
      (getRoot s).2.root = some (elaborate s)) := by
  cases h : s.root with
  | some r =>
      refine ⟨?_, ?_, ?_⟩
      · simp [getRoot, h]
      · simp [getRoot, h]
      · intro hn; exact absurd hn (by simp)
  | none =>
      refine ⟨?_, ?_, ?_⟩
      · simp [getRoot, h]
      · simp [getRoot, h]
      · intro _; simp [getRoot, h]

/-- C5: the first noteBindDirective call for a directive returns true and
records it in the seen set; every later call with the same directive returns
false and changes nothing, so each directive is elaborated at most once. -/
theorem noteBindDirective_once (s : CompilationState) (d : Nat) :
    (s.seenBindDirectives.contains d = false →
      (noteBindDirective d s).1 = true ∧
      (noteBindDirective d s).2.seenBindDirectives.contains d = true) ∧
    (s.seenBindDirectives.contains d = true →
      noteBindDirective d s = (false, s)) ∧
    ((noteBindDirective d (noteBindDirective d s).2).1 = false) := by
  refine ⟨?_, ?_, ?_⟩
  · intro h
    have h' : d ∉ s.seenBindDirectives := by simpa using h
    constructor <;> simp [noteBindDirective, h']
  · intro h
    have h' : d ∈ s.seenBindDirectives := by simpa using h
    simp [noteBindDirective, h']
  · by_cases h : d ∈ s.seenBindDirectives <;>
      simp [noteBindDirective, h]

/-- Witness for C5 at a concrete state: a fresh compilation and directive 7. -/
theorem noteBindDirective_once_witness :
    ((Compilation.fresh {}).seenBindDirectives.contains 7 = false →
      (noteBindDirective 7 (Compilation.fresh {})).1 = true ∧
      (noteBindDirective 7
          (Compilation.fresh {})).2.seenBindDirectives.contains 7 = true) ∧
    ((Compilation.fresh {}).seenBindDirectives.contains 7 = true →
      noteBindDirective 7 (Compilation.fresh {}) = (false, Compilation.fresh {})) ∧
    ((noteBindDirective 7 (noteBindDirective 7 (Compilation.fresh {})).2).1 = false) :=
  noteBindDirective_once (Compilation.fresh {}) 7

/-- C7: typo correction is budgeted — over any sequence of lookups the
correction count never exceeds the configured limit; an attempt happens only
for an unresolved name and only while the count is strictly below the limit,
and each attempt increments the count by exactly one. -/
theorem typo_correction_budget (s : CompilationState) (os : List LookupOutcome)
    (h : s.typoCorrections ≤ s.options.typoCorrectionLimit) :
    ((runLookups s os).typoCorrections ≤
        (runLookups s os).options.typoCorrectionLimit) ∧
    (∀ t o, (lookupFinish t o).2 = true →
        o = LookupOutcome.unresolved ∧
        t.typoCorrections < t.options.typoCorrectionLimit ∧
        (lookupFinish t o).1.typoCorrections = t.typoCorrections + 1) ∧
    (∀ t, lookupFinish t LookupOutcome.resolved = (t, false)) := by
  refine ⟨?_, ?_, ?_⟩
  · induction os generalizing s with
    | nil => exact h
    | cons o rest ih =>
        exact ih (lookupFinish s o).1 (lookupFinish_bound s o h)
  · intro t o hattempt
    cases o with
    | resolved => exact absurd hattempt (by simp [lookupFinish])
    | unresolved =>
        by_cases hdo : doTypoCorrection t
        · refine ⟨rfl, ?_, ?_⟩
          · simpa [doTypoCorrection] using hdo
          · simp [lookupFinish, hdo, didTypoCorrection]
        · exact absurd hattempt (by simp [lookupFinish, hdo])
  · intro t; rfl

/-- Witness for C7 at a concrete state: a fresh compilation running one
resolved and two unresolved lookups. -/
theorem typo_correction_budget_witness :
    ((runLookups (Compilation.fresh {})
        [LookupOutcome.resolved, LookupOutcome.unresolved,
         LookupOutcome.unresolved]).typoCorrections ≤
      (runLookups (Compilation.fresh {})
        [LookupOutcome.resolved, LookupOutcome.unresolved,
         LookupOutcome.unresolved]).options.typoCorrectionLimit) ∧
    (∀ t o, (lookupFinish t o).2 = true →
        o = LookupOutcome.unresolved ∧
        t.typoCorrections < t.options.typoCorrectionLimit ∧
        (lookupFinish t o).1.typoCorrections = t.typoCorrections + 1) ∧
    (∀ t, lookupFinish t LookupOutcome.resolved = (t, false)) :=
  typo_correction_budget (Compilation.fresh {})
    [LookupOutcome.resolved, LookupOutcome.unresolved, LookupOutcome.unresolved]
    (by decide)

/-- getRoot caches the root it returns. -/
theorem getRoot_state_root (s : CompilationState) :
    (getRoot s).2.root = some (getRoot s).1 := by
  cases h : s.root with
  | some r => simp [getRoot, h]
  | none => simp [getRoot, h]

/-- getRoot does not touch the script scopes or the unit id counter. -/
theorem getRoot_preserves_script (s : CompilationState) :
    (getRoot s).2.scriptScopes = s.scriptScopes ∧
    (getRoot s).2.nextUnitId = s.nextUnitId := by
  cases h : s.root with
  | some r => simp [getRoot, h]
  | none => simp [getRoot, h]

/-- getRoot on a state with a cached root returns it and leaves the state
unchanged. -/
theorem getRoot_cached (t : CompilationState) (r : RootSymbol)
    (h : t.root = some r) : getRoot t = (r, t) := by
  simp [getRoot, h]

/-- C9: createScriptScope succeeds even after finalization, returning a
compilation unit not previously handed out, and an instantiation placed in
that script scope does not change the design's top-level instances. -/
theorem createScriptScope_after_finalize (s : CompilationState)
    (hfresh : scriptIdsFresh s) :
    ∃ u s2, createScriptScope (getRoot s).2 = Except.ok (u, s2) ∧
      u ∉ (getRoot s).2.scriptScopes ∧
      ∀ m, (getRoot (instantiateInScriptScope s2 u m)).1 = (getRoot s).1 := by
  refine ⟨(getRoot s).2.nextUnitId,
    { (getRoot s).2 with
        scriptScopes := (getRoot s).2.scriptScopes ++ [(getRoot s).2.nextUnitId]
        nextUnitId := (getRoot s).2.nextUnitId + 1 },
    rfl, ?_, ?_⟩
  · intro hmem
    rw [(getRoot_preserves_script s).1, (getRoot_preserves_script s).2] at hmem
    exact absurd (hfresh _ hmem) (lt_irrefl _)
  · intro m
    have hcache : (instantiateInScriptScope
        { (getRoot s).2 with
            scriptScopes := (getRoot s).2.scriptScopes ++ [(getRoot s).2.nextUnitId]
            nextUnitId := (getRoot s).2.nextUnitId + 1 }
        ((getRoot s).2.nextUnitId) m).root = some (getRoot s).1 :=
      getRoot_state_root s
    rw [getRoot_cached _ _ hcache]

/-- A concrete compilation state holding one syntax tree with modules top
and leaf, where top instantiates leaf. -/
def scriptDemoState : CompilationState :=
  { Compilation.fresh {} with
      syntaxTrees := [[⟨"top", ["leaf"]⟩, ⟨"leaf", []⟩]] }

/-- Witness for C9 at a concrete state: the demo compilation finalized, then
given a script scope. -/
theorem createScriptScope_after_finalize_witness :
    ∃ u s2, createScriptScope (getRoot scriptDemoState).2 = Except.ok (u, s2) ∧
      u ∉ (getRoot scriptDemoState).2.scriptScopes ∧
      ∀ m, (getRoot (instantiateInScriptScope s2 u m)).1 =
        (getRoot scriptDemoState).1 :=
  createScriptScope_after_finalize scriptDemoState
    (by intro u hu; simp [scriptDemoState, Compilation.fresh] at hu)

/-- An identifier for a loaded source buffer.  Modelled from the spec: the
`BufferID` type lives outside the visible source; id 0 is the
default-constructed invalid id, assigned ids start at 1. -/
structure BufferID where
  id : Nat

/-- Whether the buffer id refers to an actual buffer entry. -/
def BufferID.valid (b : BufferID) : Bool := b.id ≠ 0

/-- Embeds `struct SourceBuffer` from SourceManager.h: the source text plus
the buffer id; its `explicit operator bool` returns `id.valid()`. -/
structure SourceBuffer where
  data : String
  id : BufferID

/-- The boolean conversion of a SourceBuffer, `explicit operator bool`. -/
def SourceBuffer.toBool (b : SourceBuffer) : Bool := b.id.valid

/-- The file system visible to the source manager: a map from paths to file
contents; a path absent from it does not name a readable file. -/
abbrev FileSys := List (String × String)

/-- Read a file from the file system, if the path names a readable file. -/
def readFile (fs : FileSys) (path : String) : Option String :=
  (fs.find? (fun p => p.1 == path)).map Prod.snd

/-- The state of a `SourceManager`: the external file system, the next
buffer id to hand out (assigned ids start at 1), and the configured system
and user include directories. -/
structure SourceManagerState where
  fileSystem : FileSys
  nextBufferId : Nat
  systemDirectories : List String
  userDirectories : List String

/-- Modelled from the spec: the body of `SourceManager::readSource` is not in
the visible source; per the unit tests it returns an invalid buffer (boolean
conversion false) when the path cannot be read, and a buffer with a fresh
valid id and the file contents on success — it does not throw. -/
def readSource (sm : SourceManagerState) (path : String) :
    SourceBuffer × SourceManagerState :=
  match readFile sm.fileSystem path with
  | none => ({ data := "", id := ⟨0⟩ }, sm)
  | some text =>
      ({ data := text, id := ⟨sm.nextBufferId⟩ },
       { sm with nextBufferId := sm.nextBufferId + 1 })

/-- The candidate paths `readHeader` tries in order: the path itself when
absolute; otherwise the path relative to the including file's directory,
then the system include directories (for system includes), then the user
include directories. -/
def headerCandidates (sm : SourceManagerState) (path : String)
    (includedFromDir : Option String) (isSystemPath : Bool) : List String :=
  if path.startsWith "/" then
    [path]
  else
    (includedFromDir.map (fun d => d ++ "/" ++ path)).toList ++
      (if isSystemPath then sm.systemDirectories.map (fun d => d ++ "/" ++ path)
       else []) ++
      sm.userDirectories.map (fun d => d ++ "/" ++ path)

/-- The first candidate that names a readable file, with its contents. -/
def firstReadable (fs : FileSys) : List String → Option String
  | [] => none
  | c :: rest =>
      match readFile fs c with
      | some text => some text
      | none => firstReadable fs rest

/-- Modelled from the spec: the body of `SourceManager::readHeader` is not in
the visible source; per the unit tests it resolves the path against the
including file and the include directories, returns an invalid buffer when
nothing can be read (never throwing), and a buffer with a fresh valid id and
the file contents on success. -/
def readHeader (sm : SourceManagerState) (path : String)
    (includedFromDir : Option String) (isSystemPath : Bool) :
    SourceBuffer × SourceManagerState :=
  match firstReadable sm.fileSystem
      (headerCandidates sm path includedFromDir isSystemPath) with
  | none => ({ data := "", id := ⟨0⟩ }, sm)
  | some text =>
      ({ data := text, id := ⟨sm.nextBufferId⟩ },
       { sm with nextBufferId := sm.nextBufferId + 1 })

/-- The lvalue correspondence for one expression: the boolean analysis agrees
with the spec's shapes, and lvalue evaluation succeeds exactly on lvalues. -/
def LShapeOK (e : Expr) : Prop :=
  (isLValue e = true ↔ IsLValueShape e) ∧
  ((∃ lv, evalLValue e = Except.ok lv) ↔ isLValue e = true)

/-- The lvalue correspondence for a concatenation's operand list. -/
def LShapeOKList (ops : List Expr) : Prop :=
  (isLValueList ops = true ↔ ∀ e ∈ ops, IsLValueShape e) ∧
  ((∃ lvs, evalLValueList ops = Except.ok lvs) ↔ isLValueList ops = true)

/-- Every expression satisfies the lvalue correspondence. -/
theorem lShapeOK_all : ∀ e, LShapeOK e := by
  refine isLValue.induct LShapeOK LShapeOKList ?_ ?_ ?_ ?_ ?_ ?_ ?_ ?_
  · intro s m h
    refine ⟨⟨?_, ?_⟩, ⟨?_, ?_⟩⟩
    · intro hm
      have hmt : m = true := by simpa [isLValue] using hm
      subst hmt
      exact IsLValueShape.namedValue s h
    · intro hs
      cases hs
      simp [isLValue]
    · rintro ⟨lv, hlv⟩
      by_cases hm : m = true
      · simp [isLValue, hm]
      · simp [evalLValue, hm] at hlv
    · intro hm
      have hmt : m = true := by simpa [isLValue] using hm
      exact ⟨LValue.sym s, by simp [evalLValue, hmt]⟩
  · intro v sel ih
    obtain ⟨ihShape, ihEval⟩ := ih
    refine ⟨⟨?_, ?_⟩, ⟨?_, ?_⟩⟩
    · intro hh
      exact IsLValueShape.elementSelect sel (ihShape.mp (by simpa [isLValue] using hh))
    · intro hs
      cases hs with
      | elementSelect _ hv => simpa [isLValue] using ihShape.mpr hv
    · rintro ⟨lv, hlv⟩
      have hv : ∃ lv', evalLValue v = Except.ok lv' := by
        cases hev : evalLValue v with
        | ok lv' => exact ⟨lv', rfl⟩
        | error err => simp [evalLValue, hev] at hlv
      simpa [isLValue] using ihEval.mp hv
    · intro hh
      obtain ⟨lv, hlv⟩ := ihEval.mpr (by simpa [isLValue] using hh)
      exact ⟨LValue.select lv (LVSelector.element sel), by simp [evalLValue, hlv]⟩
  · intro v l r ih
    obtain ⟨ihShape, ihEval⟩ := ih
    refine ⟨⟨?_, ?_⟩, ⟨?_, ?_⟩⟩
    · intro hh
      exact IsLValueShape.rangeSelect l r (ihShape.mp (by simpa [isLValue] using hh))
    · intro hs
      cases hs with
      | rangeSelect _ _ hv => simpa [isLValue] using ihShape.mpr hv
    · rintro ⟨lv, hlv⟩
      have hv : ∃ lv', evalLValue v = Except.ok lv' := by
        cases hev : evalLValue v with
        | ok lv' => exact ⟨lv', rfl⟩
        | error err => simp [evalLValue, hev] at hlv
      simpa [isLValue] using ihEval.mp hv
    · intro hh
      obtain ⟨lv, hlv⟩ := ihEval.mpr (by simpa [isLValue] using hh)
      exact ⟨LValue.select lv (LVSelector.range l r), by simp [evalLValue, hlv]⟩
  · intro v f ih
    obtain ⟨ihShape, ihEval⟩ := ih
    refine ⟨⟨?_, ?_⟩, ⟨?_, ?_⟩⟩
    · intro hh
      exact IsLValueShape.memberAccess f (ihShape.mp (by simpa [isLValue] using hh))
    · intro hs
      cases hs with
      | memberAccess _ hv => simpa [isLValue] using ihShape.mpr hv
    · rintro ⟨lv, hlv⟩
      have hv : ∃ lv', evalLValue v = Except.ok lv' := by
        cases hev : evalLValue v with
        | ok lv' => exact ⟨lv', rfl⟩
        | error err => simp [evalLValue, hev] at hlv
      simpa [isLValue] using ihEval.mp hv
    · intro hh
      obtain ⟨lv, hlv⟩ := ihEval.mpr (by simpa [isLValue] using hh)
      exact ⟨LValue.select lv (LVSelector.member f), by simp [evalLValue, hlv]⟩
  · intro ops ih
    obtain ⟨ihShape, ihEval⟩ := ih
    refine ⟨⟨?_, ?_⟩, ⟨?_, ?_⟩⟩
    · intro hh
      exact IsLValueShape.concatenation (ihShape.mp (by simpa [isLValue] using hh))
    · intro hs
      cases hs with
      | concatenation hall => simpa [isLValue] using ihShape.mpr hall
    · rintro ⟨lv, hlv⟩
      have hv : ∃ lvs, evalLValueList ops = Except.ok lvs := by
        cases hev : evalLValueList ops with
        | ok lvs => exact ⟨lvs, rfl⟩
        | error err => simp [evalLValue, hev] at hlv
      simpa [isLValue] using ihEval.mp hv
    · intro hh
      obtain ⟨lvs, hlvs⟩ := ihEval.mpr (by simpa [isLValue] using hh)
      exact ⟨LValue.concat lvs, by simp [evalLValue, hlvs]⟩
  · intro t hnv hes hrs hma hcc
    cases t <;>
      first
        | exact absurd rfl (hnv _ _ _)
        | exact absurd rfl (hes _ _)
        | exact absurd rfl (hrs _ _ _)
        | exact absurd rfl (hma _ _)
        | exact absurd rfl (hcc _)
        | (refine ⟨⟨?_, ?_⟩, ⟨?_, ?_⟩⟩
           · intro hh
             simp [isLValue] at hh
           · intro hs
             cases hs
           · rintro ⟨lv, hlv⟩
             simp [evalLValue] at hlv
           · intro hh
             simp [isLValue] at hh)
  · refine ⟨⟨?_, ?_⟩, ⟨?_, ?_⟩⟩
    · intro _ e he
      exact absurd he (List.not_mem_nil e)
    · intro _
      simp [isLValueList]
    · intro _
      simp [isLValueList]
    · intro _
      exact ⟨[], by simp [evalLValueList]⟩
  · intro e rest ih1 ih2
    obtain ⟨ih1S, ih1E⟩ := ih1
    obtain ⟨ih2S, ih2E⟩ := ih2
    refine ⟨⟨?_, ?_⟩, ⟨?_, ?_⟩⟩
    · intro hh
      have hsplit : isLValue e = true ∧ isLValueList rest = true := by
        simpa [isLValueList, Bool.and_eq_true] using hh
      intro x hx
      rcases List.mem_cons.mp hx with rfl | hx
      · exact ih1S.mp hsplit.1
      · exact ih2S.mp hsplit.2 x hx
    · intro hall
      simp only [isLValueList, Bool.and_eq_true]
      exact ⟨ih1S.mpr (hall e (by simp)),
             ih2S.mpr (fun x hx => hall x (by simp [hx]))⟩
    · rintro ⟨lvs, hlvs⟩
      cases hev : evalLValue e with
      | error err => simp [evalLValueList, hev] at hlvs
      | ok lv =>
          cases hevr : evalLValueList rest with
          | error err => simp [evalLValueList, hev, hevr] at hlvs
          | ok lvs' =>
              simp only [isLValueList, Bool.and_eq_true]
              exact ⟨ih1E.mp ⟨lv, hev⟩, ih2E.mp ⟨lvs', hevr⟩⟩
    · intro hh
      have hsplit : isLValue e = true ∧ isLValueList rest = true := by
        simpa [isLValueList, Bool.and_eq_true] using hh
      obtain ⟨lv, hlv⟩ := ih1E.mpr hsplit.1
      obtain ⟨lvs, hlvs⟩ := ih2E.mpr hsplit.2
      exact ⟨lv :: lvs, by simp [evalLValueList, hlv, hlvs]⟩

/-- C4: isLValue is true exactly on the spec's lvalue shapes — a named value
referring to a mutable symbol, an element- or range-select of an lvalue, a
member access whose base is an lvalue, or a concatenation of lvalues — and
evalLValue succeeds exactly on those shapes, throwing on every other
expression kind. -/
theorem lvalue_analysis (e : Expr) :
    (isLValue e = true ↔ IsLValueShape e) ∧
    ((∃ lv, evalLValue e = Except.ok lv) ↔ isLValue e = true) :=
  lShapeOK_all e

/-- C10: for a path naming no readable file, readSource and readHeader
return a buffer whose boolean conversion is false rather than throwing; a
successful read returns a buffer with a valid id and the file's contents. -/
theorem read_source_header_results (sm : SourceManagerState) (p : String)
    (dir : Option String) (sys : Bool) (hid : sm.nextBufferId ≠ 0) :
    (readFile sm.fileSystem p = none →
      (readSource sm p).1.toBool = false) ∧
    (∀ text, readFile sm.fileSystem p = some text →
      (readSource sm p).1.toBool = true ∧ (readSource sm p).1.data = text) ∧
    (firstReadable sm.fileSystem (headerCandidates sm p dir sys) = none →
      (readHeader sm p dir sys).1.toBool = false) ∧
    (∀ text,
      firstReadable sm.fileSystem (headerCandidates sm p dir sys) = some text →
      (readHeader sm p dir sys).1.toBool = true ∧
      (readHeader sm p dir sys).1.data = text) := by
  refine ⟨?_, ?_, ?_, ?_⟩
  · intro h
    simp [readSource, h, SourceBuffer.toBool, BufferID.valid]
  · intro text h
    constructor <;> simp [readSource, h, SourceBuffer.toBool, BufferID.valid, hid]
  · intro h
    simp [readHeader, h, SourceBuffer.toBool, BufferID.valid]
  · intro text h
    constructor <;> simp [readHeader, h, SourceBuffer.toBool, BufferID.valid, hid]

/-- Witness for C10 at a concrete input: a file system holding one file and
a manager whose next buffer id is 1. -/
theorem read_source_header_results_witness :
    (readFile (⟨[("/a/include.svh", "hello")], 1, [], []⟩ :
        SourceManagerState).fileSystem "/a/include.svh" = none →
      (readSource ⟨[("/a/include.svh", "hello")], 1, [], []⟩
        "/a/include.svh").1.toBool = false) ∧
    (∀ text, readFile (⟨[("/a/include.svh", "hello")], 1, [], []⟩ :
        SourceManagerState).fileSystem "/a/include.svh" = some text →
      (readSource ⟨[("/a/include.svh", "hello")], 1, [], []⟩
        "/a/include.svh").1.toBool = true ∧
      (readSource ⟨[("/a/include.svh", "hello")], 1, [], []⟩
        "/a/include.svh").1.data = text) ∧
    (firstReadable (⟨[("/a/include.svh", "hello")], 1, [], []⟩ :
        SourceManagerState).fileSystem
        (headerCandidates ⟨[("/a/include.svh", "hello")], 1, [], []⟩
          "/a/include.svh" (some "/a") false) = none →
      (readHeader ⟨[("/a/include.svh", "hello")], 1, [], []⟩
        "/a/include.svh" (some "/a") false).1.toBool = false) ∧
    (∀ text,
      firstReadable (⟨[("/a/include.svh", "hello")], 1, [], []⟩ :
          SourceManagerState).fileSystem
          (headerCandidates ⟨[("/a/include.svh", "hello")], 1, [], []⟩
            "/a/include.svh" (some "/a") false) = some text →
      (readHeader ⟨[("/a/include.svh", "hello")], 1, [], []⟩
        "/a/include.svh" (some "/a") false).1.toBool = true ∧
      (readHeader ⟨[("/a/include.svh", "hello")], 1, [], []⟩
        "/a/include.svh" (some "/a") false).1.data = text) :=
  read_source_header_results ⟨[("/a/include.svh", "hello")], 1, [], []⟩
    "/a/include.svh" (some "/a") false (by decide)

/-- C6: the sentinel min compares strictly before, and max strictly after,
every location built from a non-null scope; and two locations in one scope
are ordered by their indices. -/
theorem lookup_location_sentinels (s : List Nat) (i j : Nat) :
    locLt LookupLoc.sentinelMin (LookupLoc.real s i) = true ∧
    locLt (LookupLoc.real s i) LookupLoc.sentinelMax = true ∧
    locLt (LookupLoc.real s i) LookupLoc.sentinelMin = false ∧
    locLt LookupLoc.sentinelMax (LookupLoc.real s i) = false ∧
    locLt (LookupLoc.real s i) (LookupLoc.real s j) = decide (i < j) := by
  refine ⟨rfl, rfl, rfl, rfl, ?_⟩
  simp [locLt]

/-- C2: getType returns the same interned type for two descriptions iff their
structural keys are equal; distinct keys in one compilation's table always
carry distinct interned identities (value equality iff pointer equality), and
the interning invariant is preserved by every getType call. -/
theorem getType_interning (t : TypeTable) (A B : VectorTypeDesc)
    (hwf : t.wf) :
    ((getType B (getType A t).2).1 = (getType A t).1 ↔
        structuralKey B = structuralKey A) ∧
    (getType A t).2.wf ∧
    (getType B (getType A t).2).2.wf ∧
    (∀ p ∈ t.cache, ∀ q ∈ t.cache, (p.2 = q.2 ↔ p.1 = q.1)) := by
  have hwf1 : (getType A t).2.wf := internKey_wf hwf (structuralKey A)
  have hmem1 : (structuralKey A, (getType A t).1) ∈ (getType A t).2.cache :=
    internKey_mem (structuralKey A) t
  refine ⟨?_, hwf1, internKey_wf hwf1 (structuralKey B), ?_⟩
  · exact internKey_fst_eq_iff hwf (structuralKey A) (structuralKey B)
  · intro p hp q hq
    constructor
    · intro h2
      have hinj := List.inj_on_of_nodup_map hwf.2.2
      exact congrArg Prod.fst (hinj hp hq h2)
    · intro h1
      have hinj := List.inj_on_of_nodup_map hwf.2.1
      exact congrArg Prod.snd (hinj hp hq h1)

/-- Witness for C2 at a concrete input: the empty type table with a 4-bit
four-state unsigned vector and an 8-bit two-state signed vector. -/
theorem getType_interning_witness :
    ((getType ⟨8, true, false, false⟩
        (getType ⟨4, false, true, false⟩ ⟨[], 0⟩).2).1 =
          (getType ⟨4, false, true, false⟩ ⟨[], 0⟩).1 ↔
        structuralKey ⟨8, true, false, false⟩ =
          structuralKey ⟨4, false, true, false⟩) ∧
    (getType ⟨4, false, true, false⟩ ⟨[], 0⟩).2.wf ∧
    (getType ⟨8, true, false, false⟩
        (getType ⟨4, false, true, false⟩ ⟨[], 0⟩).2).2.wf ∧
    (∀ p ∈ (⟨[], 0⟩ : TypeTable).cache, ∀ q ∈ (⟨[], 0⟩ : TypeTable).cache,
        (p.2 = q.2 ↔ p.1 = q.1)) :=
  getType_interning ⟨[], 0⟩ ⟨4, false, true, false⟩ ⟨8, true, false, false⟩
    (by refine ⟨?_, ?_, ?_⟩ <;> simp [TypeTable.wf])

end Slang
